import Mathlib

/-!
# Verification of the PDF auto-renamer core

A shallow embedding of the ingestion pipeline of `src/pdf_renamer.py` and
`src/app.py` (the two variants share the classifier-output sanitization and
the collision-probing loop; they differ in the 240-character length handling,
the move-failure fallback and the text fallback, and both variants are
embedded where they differ).

Python strings are modelled as `List Char`.  Python's `re` module operates on
Unicode strings; the character classes `\s` (whitespace), `\w` (word
characters) and the line-break set of `str.splitlines` are embedded by
explicit predicates on code points, exact on the Basic Latin and Latin-1
ranges (U+0000..U+00FF) plus the Unicode whitespace/line-break code points;
word characters above U+00FF are conservatively treated as non-word (no claim
here depends on them).  The filesystem namespace of the destination directory
is modelled as the list of filenames it contains: both sources build paths as
`os.path.normpath(os.path.join(output_dir, new_name))` with one fixed
`output_dir`, and for the separator-free names at issue (sanitized bases hold
only word characters and hyphens) `normpath` leaves the joined path alone, so
candidate paths coincide exactly when their filenames do.
-/

namespace PdfAutoRenamer

/-! ## Character classes (CPython `str`/`re` semantics) -/

/-- Python `str` whitespace (the set `str.strip()` removes and `\s` matches):
tab..carriage-return (9..13), the C1 separators 28..31, space, NEL (U+0085),
NBSP (U+00A0), and the Unicode space separators. -/
def pyIsSpace (c : Char) : Bool :=
  let n := c.toNat
  (9 ≤ n && n ≤ 13) || n = 32 || (28 ≤ n && n ≤ 31) || n = 0x85 || n = 0xa0 ||
    n = 0x1680 || (0x2000 ≤ n && n ≤ 0x200a) || n = 0x2028 || n = 0x2029 ||
    n = 0x202f || n = 0x205f || n = 0x3000

/-- The line boundaries of Python `str.splitlines`: LF, VT, FF, CR,
FS/GS/RS (28..30), NEL (U+0085), LINE SEPARATOR and PARAGRAPH SEPARATOR. -/
def pyIsLineBreak (c : Char) : Bool :=
  let n := c.toNat
  (10 ≤ n && n ≤ 13) || (28 ≤ n && n ≤ 30) || n = 0x85 || n = 0x2028 || n = 0x2029

/-- Python's Unicode-aware `\w` (word character), embedded exactly on
U+0000..U+00FF: ASCII alphanumerics, the underscore, and the Latin-1
alphanumerics (ª ² ³ µ ¹ º ¼ ½ ¾ and the letters À..ÿ except × and ÷).
Code points above U+00FF are conservatively treated as non-word. -/
def pyIsWordChar (c : Char) : Bool :=
  let n := c.toNat
  (48 ≤ n && n ≤ 57) || (65 ≤ n && n ≤ 90) || (97 ≤ n && n ≤ 122) || n = 95 ||
    n = 0xaa || n = 0xb2 || n = 0xb3 || n = 0xb5 || n = 0xb9 || n = 0xba ||
    (0xbc ≤ n && n ≤ 0xbe) || (0xc0 ≤ n && n ≤ 0xff && n ≠ 0xd7 && n ≠ 0xf7)

/-- The character class `[A-Za-z0-9_-]` that the specification asserts for
sanitizer output (spec §3 SanitizedName, §8 first property). -/
def specAsciiNameChar (c : Char) : Bool :=
  let n := c.toNat
  (48 ≤ n && n ≤ 57) || (65 ≤ n && n ≤ 90) || (97 ≤ n && n ≤ 122) || c = '_' || c = '-'

/-! ## The sanitization steps of `generate_filename_with_openai`
(`src/pdf_renamer.py` 189-228, identical in `src/app.py` 304-319). -/

/-- `str.strip()`: drop leading and trailing whitespace. -/
def pyStrip (l : List Char) : List Char :=
  List.rdropWhile pyIsSpace (l.dropWhile pyIsSpace)

/-- Split a list at its first `'>'`: `some (before, after)` when one exists. -/
def splitAtGt : List Char → Option (List Char × List Char)
  | [] => none
  | c :: rest =>
    if c = '>' then some ([], rest)
    else (splitAtGt rest).map (fun p => (c :: p.1, p.2))

/-- One pass of `re.sub(r'<[^>]+>', '', s)`: at each `'<'` that is followed by
at least one non-`'>'` character and then a `'>'`, the whole `<...>` run is
removed and scanning resumes after it; any other character is kept.  The fuel
argument only serves termination; `stripTags` below supplies enough. -/
def stripTagsAux : Nat → List Char → List Char
  | 0, l => l
  | _ + 1, [] => []
  | fuel + 1, c :: rest =>
    if c = '<' then
      match splitAtGt rest with
      | some (mid, after) =>
        if mid = [] then c :: stripTagsAux fuel rest else stripTagsAux fuel after
      | none => c :: stripTagsAux fuel rest
    else c :: stripTagsAux fuel rest

/-- `re.sub(r'<[^>]+>', '', s)` (line 194 of `src/pdf_renamer.py`). -/
def stripTags (l : List Char) : List Char :=
  stripTagsAux l.length l

/-- `output_text.splitlines()[0]`, with the `IndexError` of an empty string
handled as `""` (lines 197-200). -/
def firstLine (l : List Char) : List Char :=
  l.takeWhile (fun c => !pyIsLineBreak c)

/-- `re.sub(r'\s+', '_', s)`: each maximal whitespace run becomes one
underscore.  The flag records whether the previous character was whitespace. -/
def collapseWsAux : Bool → List Char → List Char
  | _, [] => []
  | prevSpace, c :: rest =>
    if pyIsSpace c then
      if prevSpace then collapseWsAux true rest else '_' :: collapseWsAux true rest
    else c :: collapseWsAux false rest

/-- `re.sub(r'\s+', '_', s)` (line 208). -/
def collapseWs (l : List Char) : List Char :=
  collapseWsAux false l

/-- `re.sub(r'_+', '_', s)`: each maximal underscore run becomes one
underscore (line 214). -/
def squeezeUnderscoresAux : Bool → List Char → List Char
  | _, [] => []
  | prevU, c :: rest =>
    if c = '_' then
      if prevU then squeezeUnderscoresAux true rest
      else '_' :: squeezeUnderscoresAux true rest
    else c :: squeezeUnderscoresAux false rest

/-- `re.sub(r'_+', '_', s)` (line 214). -/
def squeezeUnderscores (l : List Char) : List Char :=
  squeezeUnderscoresAux false l

/-- `str.strip('_')`: drop leading and trailing underscores (line 217). -/
def stripEdgeUnderscores (l : List Char) : List Char :=
  List.rdropWhile (fun c => c = '_') (l.dropWhile (fun c => c = '_'))

/-- The post-classifier sanitization of `generate_filename_with_openai`,
taking the raw model response (`response.choices[0].message.content`) to the
final base name (`src/pdf_renamer.py` 189-228 / `src/app.py` 304-319):
strip, drop `<...>` tag runs and strip, take the first line and strip,
sentinel if empty, whitespace runs to `_`, drop everything outside `\w` and
`-`, squeeze `_` runs, trim edge `_`, sentinel if empty, truncate to 70. -/
def sanitize_label (output_text : List Char) : List Char :=
  let t0 := pyStrip output_text
  let t1 := pyStrip (stripTags t0)
  let fn0 := pyStrip (firstLine t1)
  if fn0 = [] then ("UNKNOWN_DOC").toList
  else
    let fn1 := collapseWs fn0
    let fn2 := fn1.filter (fun c => pyIsWordChar c || c = '-')
    let fn3 := squeezeUnderscores fn2
    let fn4 := stripEdgeUnderscores fn3
    if fn4 = [] then ("UNKNOWN_DOC").toList
    else
      let fn5 := fn4.take 70
      if fn5 = [] then ("UNKNOWN_DOC").toList else fn5

/-- Two consecutive underscores somewhere in the list. -/
def hasDoubleUnderscore : List Char → Bool
  | a :: b :: rest => (a = '_' && b = '_') || hasDoubleUnderscore (b :: rest)
  | _ => false

example : sanitize_label (("  2024-11-23 AOK   Rechnung <div>x</div> 12  ").toList) =
    ("2024-11-23_AOK_Rechnung_x_12").toList := by decide

example : sanitize_label [] = ("UNKNOWN_DOC").toList := by decide

example : sanitize_label (("  a__b!!c  ").toList) = ("a_bc").toList := by decide

/-! ## Membership facts for the sanitization steps -/

lemma mem_of_mem_rdropWhile {p : Char → Bool} {c : Char} {l : List Char}
    (h : c ∈ List.rdropWhile p l) : c ∈ l := by
  unfold List.rdropWhile at h
  exact List.mem_reverse.mp ((List.dropWhile_sublist p).subset (List.mem_reverse.mp h))

lemma mem_of_mem_pyStrip {c : Char} {l : List Char} (h : c ∈ pyStrip l) : c ∈ l :=
  (List.dropWhile_sublist pyIsSpace).subset (mem_of_mem_rdropWhile h)

lemma mem_of_mem_stripEdge {c : Char} {l : List Char}
    (h : c ∈ stripEdgeUnderscores l) : c ∈ l :=
  (List.dropWhile_sublist _).subset (mem_of_mem_rdropWhile h)

lemma mem_of_mem_squeezeAux : ∀ {b : Bool} {l : List Char} {c : Char},
    c ∈ squeezeUnderscoresAux b l → c = '_' ∨ c ∈ l := by
  intro b l
  induction l generalizing b with
  | nil => intro c h; simp [squeezeUnderscoresAux] at h
  | cons a t ih =>
    intro c h
    by_cases ha : a = '_'
    · subst ha
      cases b with
      | true =>
        simp only [squeezeUnderscoresAux, if_pos rfl, if_pos rfl] at h
        rcases ih h with h' | h'
        · exact Or.inl h'
        · exact Or.inr (List.mem_cons_of_mem _ h')
      | false =>
        simp only [squeezeUnderscoresAux, if_pos rfl] at h
        rcases List.mem_cons.mp h with h' | h'
        · exact Or.inl h'
        · rcases ih h' with h'' | h''
          · exact Or.inl h''
          · exact Or.inr (List.mem_cons_of_mem _ h'')
    · simp only [squeezeUnderscoresAux, if_neg ha] at h
      rcases List.mem_cons.mp h with h' | h'
      · exact Or.inr (h' ▸ List.mem_cons_self a t)
      · rcases ih h' with h'' | h''
        · exact Or.inl h''
        · exact Or.inr (List.mem_cons_of_mem _ h'')

/-! ## Double-underscore facts -/

lemma hasDD_append_left {l₁ : List Char} (l₂ : List Char)
    (h : hasDoubleUnderscore l₁ = true) : hasDoubleUnderscore (l₁ ++ l₂) = true := by
  induction l₁ with
  | nil => simp [hasDoubleUnderscore] at h
  | cons a t ih =>
    cases t with
    | nil => simp [hasDoubleUnderscore] at h
    | cons b r =>
      simp only [hasDoubleUnderscore, Bool.or_eq_true] at h
      rcases h with h | h
      · simp [List.cons_append, hasDoubleUnderscore, h]
      · have := ih h
        simp only [List.cons_append] at this ⊢
        simp [hasDoubleUnderscore, this]

lemma hasDD_append_right (l₁ : List Char) {l₂ : List Char}
    (h : hasDoubleUnderscore l₂ = true) : hasDoubleUnderscore (l₁ ++ l₂) = true := by
  induction l₁ with
  | nil => simpa using h
  | cons a t ih =>
    cases htl : t ++ l₂ with
    | nil =>
      rcases List.append_eq_nil.mp htl with ⟨_, h2⟩
      subst h2
      simp [hasDoubleUnderscore] at h
    | cons b r =>
      rw [htl] at ih
      simp only [List.cons_append, htl, hasDoubleUnderscore, ih, Bool.or_true]

lemma hasDD_take_false {l : List Char} (n : Nat)
    (h : hasDoubleUnderscore l = false) : hasDoubleUnderscore (l.take n) = false := by
  cases hx : hasDoubleUnderscore (l.take n) with
  | false => rfl
  | true =>
    have := hasDD_append_left (l.drop n) hx
    rw [List.take_append_drop] at this
    rw [this] at h
    exact absurd h (by simp)

lemma hasDD_dropWhile_false {p : Char → Bool} {l : List Char}
    (h : hasDoubleUnderscore l = false) : hasDoubleUnderscore (l.dropWhile p) = false := by
  cases hx : hasDoubleUnderscore (l.dropWhile p) with
  | false => rfl
  | true =>
    have := hasDD_append_right (l.takeWhile p) hx
    rw [List.takeWhile_append_dropWhile] at this
    rw [this] at h
    exact absurd h (by simp)

lemma rdropWhile_append_exists (p : Char → Bool) (l : List Char) :
    ∃ t, l = List.rdropWhile p l ++ t := by
  refine ⟨List.rtakeWhile p l, ?_⟩
  conv_lhs => rw [← List.reverse_reverse l, ← List.takeWhile_append_dropWhile p l.reverse]
  rw [List.reverse_append]
  rfl

lemma hasDD_rdropWhile_false {p : Char → Bool} {l : List Char}
    (h : hasDoubleUnderscore l = false) :
    hasDoubleUnderscore (List.rdropWhile p l) = false := by
  obtain ⟨t, ht⟩ := rdropWhile_append_exists p l
  cases hx : hasDoubleUnderscore (List.rdropWhile p l) with
  | false => rfl
  | true =>
    have := hasDD_append_left t hx
    rw [← ht] at this
    rw [this] at h
    exact absurd h (by simp)

lemma squeezeAux_no_dd : ∀ l : List Char,
    hasDoubleUnderscore (squeezeUnderscoresAux false l) = false ∧
    hasDoubleUnderscore (squeezeUnderscoresAux true l) = false ∧
    (squeezeUnderscoresAux true l).head? ≠ some '_' := by
  intro l
  induction l with
  | nil => refine ⟨rfl, rfl, by simp [squeezeUnderscoresAux]⟩
  | cons c rest ih =>
    obtain ⟨ih1, ih2, ih3⟩ := ih
    by_cases hc : c = '_'
    · subst hc
      refine ⟨?_, ?_, ?_⟩
      · simp only [squeezeUnderscoresAux, if_pos rfl]
        cases hx : squeezeUnderscoresAux true rest with
        | nil => rfl
        | cons b r =>
          have hb : b ≠ '_' := by
            rw [hx] at ih3; simpa using ih3
          rw [hx] at ih2
          simp [hasDoubleUnderscore, hb, ih2]
      · simpa only [squeezeUnderscoresAux, if_pos rfl] using ih2
      · simpa only [squeezeUnderscoresAux, if_pos rfl] using ih3
    · refine ⟨?_, ?_, ?_⟩
      · simp only [squeezeUnderscoresAux, if_neg hc]
        cases hx : squeezeUnderscoresAux false rest with
        | nil => simp [hasDoubleUnderscore]
        | cons b r =>
          rw [hx] at ih1
          simp [hasDoubleUnderscore, hc, ih1]
      · simp only [squeezeUnderscoresAux, if_neg hc]
        cases hx : squeezeUnderscoresAux false rest with
        | nil => simp [hasDoubleUnderscore]
        | cons b r =>
          rw [hx] at ih1
          simp [hasDoubleUnderscore, hc, ih1]
      · simp [squeezeUnderscoresAux, if_neg hc, hc]

/-! ## Character-class implications for `[A-Za-z0-9_-]` -/

lemma specAscii_cases {c : Char} (h : specAsciiNameChar c = true) :
    (48 ≤ c.toNat ∧ c.toNat ≤ 57) ∨ (65 ≤ c.toNat ∧ c.toNat ≤ 90) ∨
      (97 ≤ c.toNat ∧ c.toNat ≤ 122) ∨ c = '_' ∨ c = '-' := by
  simp only [specAsciiNameChar, Bool.or_eq_true, Bool.and_eq_true,
    decide_eq_true_eq] at h
  tauto

lemma specAscii_not_space {c : Char} (h : specAsciiNameChar c = true) :
    pyIsSpace c = false := by
  rcases specAscii_cases h with h' | h' | h' | rfl | rfl
  · cases hb : pyIsSpace c with
    | false => rfl
    | true =>
      simp only [pyIsSpace, Bool.or_eq_true, Bool.and_eq_true, decide_eq_true_eq] at hb
      omega
  · cases hb : pyIsSpace c with
    | false => rfl
    | true =>
      simp only [pyIsSpace, Bool.or_eq_true, Bool.and_eq_true, decide_eq_true_eq] at hb
      omega
  · cases hb : pyIsSpace c with
    | false => rfl
    | true =>
      simp only [pyIsSpace, Bool.or_eq_true, Bool.and_eq_true, decide_eq_true_eq] at hb
      omega
  · decide
  · decide

lemma specAscii_not_break {c : Char} (h : specAsciiNameChar c = true) :
    pyIsLineBreak c = false := by
  rcases specAscii_cases h with h' | h' | h' | rfl | rfl
  · cases hb : pyIsLineBreak c with
    | false => rfl
    | true =>
      simp only [pyIsLineBreak, Bool.or_eq_true, Bool.and_eq_true, decide_eq_true_eq] at hb
      omega
  · cases hb : pyIsLineBreak c with
    | false => rfl
    | true =>
      simp only [pyIsLineBreak, Bool.or_eq_true, Bool.and_eq_true, decide_eq_true_eq] at hb
      omega
  · cases hb : pyIsLineBreak c with
    | false => rfl
    | true =>
      simp only [pyIsLineBreak, Bool.or_eq_true, Bool.and_eq_true, decide_eq_true_eq] at hb
      omega
  · decide
  · decide

lemma specAscii_ne_lt {c : Char} (h : specAsciiNameChar c = true) : c ≠ '<' := by
  rcases specAscii_cases h with h' | h' | h' | rfl | rfl
  · intro hc; subst hc; exact absurd h' (by decide)
  · intro hc; subst hc; exact absurd h' (by decide)
  · intro hc; subst hc; exact absurd h' (by decide)
  · decide
  · decide

lemma specAscii_word_or_hyphen {c : Char} (h : specAsciiNameChar c = true) :
    (pyIsWordChar c || c = '-') = true := by
  rcases specAscii_cases h with h' | h' | h' | rfl | rfl
  · have hw : pyIsWordChar c = true := by
      simp only [pyIsWordChar, Bool.or_eq_true, Bool.and_eq_true, decide_eq_true_eq]
      omega
    simp [hw]
  · have hw : pyIsWordChar c = true := by
      simp only [pyIsWordChar, Bool.or_eq_true, Bool.and_eq_true, decide_eq_true_eq]
      omega
    simp [hw]
  · have hw : pyIsWordChar c = true := by
      simp only [pyIsWordChar, Bool.or_eq_true, Bool.and_eq_true, decide_eq_true_eq]
      omega
    simp [hw]
  · decide
  · decide

/-! ## The four guarantees of the sanitizer -/

lemma sanitize_label_ne_nil (s : List Char) : sanitize_label s ≠ [] := by
  simp only [sanitize_label]
  split_ifs with h1 h2 h3
  · decide
  · decide
  · decide
  · exact h3

lemma sanitize_label_length_le (s : List Char) : (sanitize_label s).length ≤ 70 := by
  simp only [sanitize_label]
  split_ifs
  · decide
  · decide
  · decide
  · exact List.length_take_le 70 _

lemma sanitize_label_chars (s : List Char) :
    ∀ c ∈ sanitize_label s, pyIsWordChar c = true ∨ c = '-' := by
  simp only [sanitize_label]
  split_ifs
  · intro c hc; revert c hc; decide
  · intro c hc; revert c hc; decide
  · intro c hc; revert c hc; decide
  · intro c hc
    have h1 : c ∈ stripEdgeUnderscores (squeezeUnderscores
        ((collapseWs (pyStrip (firstLine (pyStrip (stripTags (pyStrip s)))))).filter
          (fun c => pyIsWordChar c || c = '-'))) := List.mem_of_mem_take hc
    have h2 := mem_of_mem_stripEdge h1
    rcases mem_of_mem_squeezeAux h2 with h3 | h3
    · subst h3; exact Or.inl (by decide)
    · have := (List.mem_filter.mp h3).2
      rw [Bool.or_eq_true] at this
      rcases this with h4 | h4
      · exact Or.inl h4
      · exact Or.inr (by simpa using h4)

lemma sanitize_label_no_dd (s : List Char) :
    hasDoubleUnderscore (sanitize_label s) = false := by
  simp only [sanitize_label]
  split_ifs
  · decide
  · decide
  · decide
  · exact hasDD_take_false _ (hasDD_rdropWhile_false (hasDD_dropWhile_false
      (squeezeAux_no_dd _).1))

/-! ## Identity lemmas: each sanitization step fixes an already-clean name -/

lemma dropWhile_eq_self_of (p : Char → Bool) (l : List Char)
    (h : ∀ c ∈ l, p c = false) : l.dropWhile p = l := by
  cases l with
  | nil => rfl
  | cons a t => simp [List.dropWhile_cons, h a (List.mem_cons_self a t)]

lemma rdropWhile_eq_self_of (p : Char → Bool) (l : List Char)
    (h : ∀ c ∈ l, p c = false) : List.rdropWhile p l = l := by
  unfold List.rdropWhile
  rw [dropWhile_eq_self_of p l.reverse (fun c hc => h c (List.mem_reverse.mp hc))]
  exact List.reverse_reverse l

lemma pyStrip_eq_self {l : List Char} (h : ∀ c ∈ l, pyIsSpace c = false) :
    pyStrip l = l := by
  rw [pyStrip, dropWhile_eq_self_of _ _ h, rdropWhile_eq_self_of _ _ h]

lemma stripTagsAux_eq_self : ∀ (fuel : Nat) (l : List Char),
    (∀ c ∈ l, c ≠ '<') → stripTagsAux fuel l = l := by
  intro fuel
  induction fuel with
  | zero => intro l _; rfl
  | succ f ih =>
    intro l h
    cases l with
    | nil => rfl
    | cons c rest =>
      have hc : c ≠ '<' := h c (List.mem_cons_self c rest)
      simp [stripTagsAux, hc, ih rest (fun x hx => h x (List.mem_cons_of_mem _ hx))]

lemma stripTags_eq_self {l : List Char} (h : ∀ c ∈ l, c ≠ '<') : stripTags l = l :=
  stripTagsAux_eq_self l.length l h

lemma firstLine_eq_self {l : List Char} (h : ∀ c ∈ l, pyIsLineBreak c = false) :
    firstLine l = l := by
  rw [firstLine, List.takeWhile_eq_self_iff.mpr]
  intro x hx
  simp [h x hx]

lemma collapseWsAux_eq_self : ∀ (b : Bool) (l : List Char),
    (∀ c ∈ l, pyIsSpace c = false) → collapseWsAux b l = l := by
  intro b l
  induction l generalizing b with
  | nil => intro _; rfl
  | cons a t ih =>
    intro h
    have ha : pyIsSpace a = false := h a (List.mem_cons_self a t)
    simp [collapseWsAux, ha, ih false (fun x hx => h x (List.mem_cons_of_mem _ hx))]

lemma hasDD_cons_false {a : Char} {t : List Char}
    (h : hasDoubleUnderscore (a :: t) = false) : hasDoubleUnderscore t = false := by
  cases t with
  | nil => rfl
  | cons b r =>
    simp only [hasDoubleUnderscore, Bool.or_eq_false_iff] at h
    exact h.2

lemma hasDD_underscore_head {t : List Char}
    (h : hasDoubleUnderscore ('_' :: t) = false) : t.head? ≠ some '_' := by
  cases t with
  | nil => simp
  | cons b r =>
    simp only [hasDoubleUnderscore, Bool.or_eq_false_iff, Bool.and_eq_false_iff] at h
    rcases h.1 with h' | h'
    · simp at h'
    · simp only [List.head?_cons, ne_eq, Option.some.injEq]
      intro hb
      rw [hb] at h'
      simp at h'

lemma squeezeAux_eq_self : ∀ l : List Char,
    (hasDoubleUnderscore l = false → squeezeUnderscoresAux false l = l) ∧
    (hasDoubleUnderscore l = false → l.head? ≠ some '_' →
      squeezeUnderscoresAux true l = l) := by
  intro l
  induction l with
  | nil => exact ⟨fun _ => rfl, fun _ _ => rfl⟩
  | cons a t ih =>
    obtain ⟨ih1, ih2⟩ := ih
    constructor
    · intro h
      by_cases ha : a = '_'
      · subst ha
        have ht := hasDD_cons_false h
        have hh := hasDD_underscore_head h
        simp [squeezeUnderscoresAux, ih2 ht hh]
      · simp [squeezeUnderscoresAux, ha, ih1 (hasDD_cons_false h)]
    · intro h hh
      have ha : a ≠ '_' := by
        intro hc
        subst hc
        exact hh rfl
      simp [squeezeUnderscoresAux, ha, ih1 (hasDD_cons_false h)]

lemma stripEdge_eq_self {l : List Char} (hhead : l.head? ≠ some '_')
    (hlast : l.getLast? ≠ some '_') : stripEdgeUnderscores l = l := by
  have h1 : l.dropWhile (fun c => c = '_') = l := by
    cases l with
    | nil => rfl
    | cons a t =>
      have ha : a ≠ '_' := by
        intro hc
        subst hc
        exact hhead rfl
      simp [List.dropWhile_cons, ha]
  rw [stripEdgeUnderscores, h1]
  rw [List.rdropWhile_eq_self_iff]
  intro hl hcontra
  apply hlast
  rw [List.getLast?_eq_getLast l hl]
  simpa using hcontra

/-! ## Claim C1 -/

/-- C1, amended: for every classifier output, the sanitized name is
non-empty, every character is a Python word character (Unicode-aware `\w`,
which properly extends `[A-Za-z0-9_]`) or a hyphen, no two underscores are
adjacent, and the length is at most 70.  (The original claim's ASCII-only
class `[A-Za-z0-9_-]` fails: see `spec_c1_ascii_counterexample`.) -/
theorem spec_c1_sanitized_output (s : List Char) :
    sanitize_label s ≠ [] ∧
      (∀ c ∈ sanitize_label s, pyIsWordChar c = true ∨ c = '-') ∧
      hasDoubleUnderscore (sanitize_label s) = false ∧
      (sanitize_label s).length ≤ 70 :=
  ⟨sanitize_label_ne_nil s, sanitize_label_chars s, sanitize_label_no_dd s,
    sanitize_label_length_le s⟩

/-- C1 counterexample: the input `"ü"` sanitizes to `"ü"` (Python's `\w` is
Unicode-aware, so `re.sub(r'[^\w\-]', '', ...)` keeps `ü`), and `ü` is not in
the claimed class `[A-Za-z0-9_-]`. -/
theorem spec_c1_ascii_counterexample :
    sanitize_label [('ü' : Char)] = [('ü' : Char)] ∧
      specAsciiNameChar 'ü' = false := by
  decide

/-! ## Claim C8 -/

/-- C8: sanitization is idempotent on already-valid names: a non-empty string
of at most 70 characters drawn from `[A-Za-z0-9_-]`, with no doubled
underscore and no leading or trailing underscore, is returned unchanged by
the sanitization steps. -/
theorem spec_c8_sanitize_idempotent (s : List Char) (hne : s ≠ [])
    (hchars : ∀ c ∈ s, specAsciiNameChar c = true)
    (hdd : hasDoubleUnderscore s = false)
    (hhead : s.head? ≠ some '_') (hlast : s.getLast? ≠ some '_')
    (hlen : s.length ≤ 70) : sanitize_label s = s := by
  have hns : ∀ c ∈ s, pyIsSpace c = false := fun c hc => specAscii_not_space (hchars c hc)
  have e1 : pyStrip s = s := pyStrip_eq_self hns
  have e2 : stripTags s = s := stripTags_eq_self (fun c hc => specAscii_ne_lt (hchars c hc))
  have e3 : firstLine s = s :=
    firstLine_eq_self (fun c hc => specAscii_not_break (hchars c hc))
  have e4 : collapseWs s = s := collapseWsAux_eq_self false s hns
  have e5 : s.filter (fun c => pyIsWordChar c || c = '-') = s :=
    List.filter_eq_self.mpr (fun c hc => specAscii_word_or_hyphen (hchars c hc))
  have e6 : squeezeUnderscores s = s := (squeezeAux_eq_self s).1 hdd
  have e7 : stripEdgeUnderscores s = s := stripEdge_eq_self hhead hlast
  have e8 : s.take 70 = s := List.take_of_length_le hlen
  simp only [sanitize_label, e1, e2, e3, e4, e5, e6, e7, e8, if_neg hne]

/-- C8 witness: a concrete already-sanitized name is a fixed point. -/
theorem spec_c8_idempotent_witness :
    sanitize_label (("2024-11-23_AOK_Abrechnung").toList) =
      ("2024-11-23_AOK_Abrechnung").toList :=
  spec_c8_sanitize_idempotent _ (by decide) (by decide) (by decide) (by decide)
    (by decide) (by decide)

/-! ## Claim C9 -/

/-- The outcome of the filename-generation call to the classifier
(`src/pdf_renamer.py` 183-235 / `src/app.py` 297-326): a response content
string, an `APIError`, or any other raised exception. -/
inductive NamingOutcome where
  | ok (content : List Char)
  | apiError
  | otherError
deriving DecidableEq

/-- `generate_filename_with_openai` over classifier outcomes: the try-block
sanitizes the response; `except APIError` returns `"UNKNOWN_DOC_API_ERROR"`
(line 229-232 / 320-323); any other exception returns `"UNKNOWN_DOC"`
(line 233-235 / 324-326). -/
def generate_filename_with_openai : NamingOutcome → List Char
  | .ok content => sanitize_label content
  | .apiError => ("UNKNOWN_DOC_API_ERROR").toList
  | .otherError => ("UNKNOWN_DOC").toList

/-- C9: naming is total over classifier outcomes and never returns an empty
name; an API error yields the distinct sentinel `"UNKNOWN_DOC_API_ERROR"`,
any other failure yields `"UNKNOWN_DOC"`, an empty response also yields
`"UNKNOWN_DOC"`, and the two sentinels are distinguishable. -/
theorem spec_c9_naming_total :
    (∀ o : NamingOutcome, generate_filename_with_openai o ≠ []) ∧
      generate_filename_with_openai NamingOutcome.apiError =
        ("UNKNOWN_DOC_API_ERROR").toList ∧
      generate_filename_with_openai NamingOutcome.otherError =
        ("UNKNOWN_DOC").toList ∧
      generate_filename_with_openai (NamingOutcome.ok []) =
        ("UNKNOWN_DOC").toList ∧
      ("UNKNOWN_DOC_API_ERROR").toList ≠ ("UNKNOWN_DOC").toList := by
  refine ⟨?_, rfl, rfl, by decide, by decide⟩
  intro o
  cases o with
  | ok c => exact sanitize_label_ne_nil c
  | apiError => decide
  | otherError => decide

/-! ## Decimal rendering of the collision counter (Python `str(counter)`) -/

/-- The character of one decimal digit. -/
def digitChar : Nat → Char
  | 0 => '0' | 1 => '1' | 2 => '2' | 3 => '3' | 4 => '4'
  | 5 => '5' | 6 => '6' | 7 => '7' | 8 => '8' | _ => '9'

/-- Little-endian digit characters of `n`; the fuel argument only serves
termination (`n` itself is enough, see `natDigitsAux_eq_digits`). -/
def natDigitsAux : Nat → Nat → List Char
  | 0, _ => []
  | fuel + 1, n =>
    if n = 0 then [] else digitChar (n % 10) :: natDigitsAux fuel (n / 10)

/-- Python `str(n)` for a natural number. -/
def natToChars (n : Nat) : List Char :=
  if n = 0 then ['0'] else (natDigitsAux n n).reverse

lemma natDigitsAux_eq_digits : ∀ (n fuel : Nat), n ≤ fuel →
    natDigitsAux fuel n = (Nat.digits 10 n).map digitChar := by
  intro n
  induction n using Nat.strong_induction_on with
  | _ n ih =>
    intro fuel hf
    cases fuel with
    | zero =>
      have hn : n = 0 := Nat.le_zero.mp hf
      subst hn
      simp [natDigitsAux]
    | succ f =>
      by_cases hn : n = 0
      · subst hn
        simp [natDigitsAux]
      · have hpos : 0 < n := Nat.pos_of_ne_zero hn
        rw [Nat.digits_def' (by norm_num : (1 : ℕ) < 10) hpos]
        have hdiv : n / 10 < n := Nat.div_lt_self hpos (by norm_num)
        have hle : n / 10 ≤ f := by omega
        simp [natDigitsAux, hn, ih (n / 10) hdiv f hle]

lemma natToChars_eq (n : Nat) (hn : n ≠ 0) :
    natToChars n = ((Nat.digits 10 n).map digitChar).reverse := by
  rw [natToChars, if_neg hn, natDigitsAux_eq_digits n n le_rfl]

lemma natToChars_length (n : Nat) (hn : n ≠ 0) :
    (natToChars n).length = Nat.log 10 n + 1 := by
  rw [natToChars_eq n hn, List.length_reverse, List.length_map,
    Nat.digits_len 10 n (by norm_num) hn]

lemma digitChar_fin_inj : ∀ a : Fin 10, ∀ b : Fin 10,
    digitChar a.val = digitChar b.val → a = b := by decide

lemma digitChar_inj {a b : Nat} (ha : a < 10) (hb : b < 10)
    (h : digitChar a = digitChar b) : a = b :=
  congrArg Fin.val (digitChar_fin_inj ⟨a, ha⟩ ⟨b, hb⟩ h)

lemma map_digitChar_inj : ∀ (l₁ l₂ : List Nat), (∀ x ∈ l₁, x < 10) →
    (∀ x ∈ l₂, x < 10) → l₁.map digitChar = l₂.map digitChar → l₁ = l₂ := by
  intro l₁
  induction l₁ with
  | nil =>
    intro l₂ _ _ h
    cases l₂ with
    | nil => rfl
    | cons b t => simp at h
  | cons a t ih =>
    intro l₂ h1 h2 h
    cases l₂ with
    | nil => simp at h
    | cons b r =>
      simp only [List.map_cons, List.cons.injEq] at h
      have hab := digitChar_inj (h1 a (List.mem_cons_self a t))
        (h2 b (List.mem_cons_self b r)) h.1
      rw [hab, ih r (fun x hx => h1 x (List.mem_cons_of_mem _ hx))
        (fun x hx => h2 x (List.mem_cons_of_mem _ hx)) h.2]

lemma natToChars_eq_zero_singleton {b : Nat} (h : natToChars b = ['0']) : b = 0 := by
  by_cases hb : b = 0
  · exact hb
  · exfalso
    rw [natToChars_eq b hb] at h
    have hx : (Nat.digits 10 b).map digitChar = ['0'] := by
      have := congrArg List.reverse h
      simpa using this
    cases hd : Nat.digits 10 b with
    | nil => rw [hd] at hx; simp at hx
    | cons d t =>
      rw [hd] at hx
      simp only [List.map_cons, List.cons.injEq] at hx
      obtain ⟨hd0, ht⟩ := hx
      have ht' : t = [] := by simpa using ht
      have hdlt : d < 10 :=
        Nat.digits_lt_base (by norm_num) (hd ▸ List.mem_cons_self d t)
      have hd00 : d = 0 := digitChar_inj hdlt (by norm_num) (by rw [hd0]; rfl)
      have hb0 : b = Nat.ofDigits 10 (Nat.digits 10 b) := (Nat.ofDigits_digits 10 b).symm
      rw [hd, ht', hd00] at hb0
      rw [Nat.ofDigits_singleton] at hb0
      exact hb hb0

lemma natToChars_inj {a b : Nat} (h : natToChars a = natToChars b) : a = b := by
  by_cases ha : a = 0 <;> by_cases hb : b = 0
  · omega
  · subst ha
    have h0 : natToChars 0 = ['0'] := rfl
    rw [h0] at h
    exact (natToChars_eq_zero_singleton h.symm).symm
  · subst hb
    have h0 : natToChars 0 = ['0'] := rfl
    rw [h0] at h
    exact natToChars_eq_zero_singleton h
  · rw [natToChars_eq a ha, natToChars_eq b hb] at h
    have h2 := List.reverse_injective h
    have h3 := map_digitChar_inj _ _
      (fun x hx => Nat.digits_lt_base (by norm_num) hx)
      (fun x hx => Nat.digits_lt_base (by norm_num) hx) h2
    have h4 := congrArg (Nat.ofDigits 10) h3
    rwa [Nat.ofDigits_digits, Nat.ofDigits_digits] at h4

/-! ## The collision-probing loop of `process_pdf` -/

/-- The fixed `.pdf` extension appended to every candidate. -/
def pdfExt : List Char := (".pdf").toList

/-- The k-th candidate filename for a base name: `base.pdf` for `k = 0` and
`base_k.pdf` for `k ≥ 1` (`src/pdf_renamer.py` 113-119, `src/app.py`
237-245). -/
def probeName (base : List Char) (k : Nat) : List Char :=
  if k = 0 then base ++ pdfExt else base ++ '_' :: (natToChars k ++ pdfExt)

lemma probeName_inj {base : List Char} {j k : Nat}
    (h : probeName base j = probeName base k) : j = k := by
  by_cases hj : j = 0 <;> by_cases hk : k = 0
  · omega
  · exfalso
    rw [probeName, if_pos hj, probeName, if_neg hk] at h
    have h2 := List.append_cancel_left h
    simp [pdfExt] at h2
  · exfalso
    rw [probeName, if_neg hj, probeName, if_pos hk] at h
    have h2 := List.append_cancel_left h
    simp [pdfExt] at h2
  · rw [probeName, if_neg hj, probeName, if_neg hk] at h
    have h1 := List.append_cancel_left h
    simp only [List.cons.injEq, true_and] at h1
    exact natToChars_inj (List.append_cancel_right h1)

/-- The probe-and-increment loop `while os.path.exists(new_path)`, with the
destination directory modelled as the list of filenames it contains.  The
fuel argument only serves termination; `resolveFirst` supplies enough for
the loop to always exit at a free name (`exists_free_probe`). -/
def probeLoop (dir : List (List Char)) (base : List Char) : Nat → Nat → List Char
  | 0, k => probeName base k
  | fuel + 1, k =>
    if probeName base k ∈ dir then probeLoop dir base fuel (k + 1)
    else probeName base k

/-- The collision-probing loop (`src/pdf_renamer.py` 112-119, `src/app.py`
236-245): `base.pdf` first, then `base_1.pdf`, `base_2.pdf`, ... until a
name not present in the directory is found. -/
def resolveFirst (dir : List (List Char)) (base : List Char) : List Char :=
  probeLoop dir base (dir.length + 1) 0

lemma exists_free_probe (dir : List (List Char)) (base : List Char) (k : Nat) :
    ∃ j, j ≤ dir.length ∧ probeName base (k + j) ∉ dir := by
  by_contra hc
  push_neg at hc
  have hinj : Set.InjOn (fun j => probeName base (k + j))
      ↑(Finset.range (dir.length + 1)) := by
    intro a _ b _ hab
    have := probeName_inj hab
    omega
  have hsub : (Finset.range (dir.length + 1)).image
      (fun j => probeName base (k + j)) ⊆ dir.toFinset := by
    intro x hx
    rw [Finset.mem_image] at hx
    obtain ⟨j, hj, rfl⟩ := hx
    rw [List.mem_toFinset]
    exact hc j (Nat.lt_succ_iff.mp (Finset.mem_range.mp hj))
  have hcard := Finset.card_le_card hsub
  rw [Finset.card_image_of_injOn hinj, Finset.card_range] at hcard
  have := List.toFinset_card_le dir
  omega

lemma probeLoop_spec (dir : List (List Char)) (base : List Char) :
    ∀ (fuel k : Nat), (∃ j, j < fuel ∧ probeName base (k + j) ∉ dir) →
    ∃ m, k ≤ m ∧ probeLoop dir base fuel k = probeName base m ∧
      probeName base m ∉ dir ∧ ∀ i, k ≤ i → i < m → probeName base i ∈ dir := by
  intro fuel
  induction fuel with
  | zero =>
    intro k h
    obtain ⟨j, hj, _⟩ := h
    omega
  | succ f ih =>
    intro k h
    by_cases hk : probeName base k ∈ dir
    · obtain ⟨j, hj, hfree⟩ := h
      have hj0 : j ≠ 0 := by
        intro h0
        subst h0
        simp only [Nat.add_zero] at hfree
        exact hfree hk
      obtain ⟨j', rfl⟩ : ∃ j', j = j' + 1 := ⟨j - 1, by omega⟩
      have hex : ∃ j, j < f ∧ probeName base ((k + 1) + j) ∉ dir :=
        ⟨j', by omega, by rwa [show (k + 1) + j' = k + (j' + 1) by omega]⟩
      obtain ⟨m, hm1, hm2, hm3, hm4⟩ := ih (k + 1) hex
      refine ⟨m, by omega, ?_, hm3, ?_⟩
      · simp [probeLoop, hk, hm2]
      · intro i hi1 hi2
        rcases Nat.eq_or_lt_of_le hi1 with rfl | hlt
        · exact hk
        · exact hm4 i hlt hi2
    · exact ⟨k, le_rfl, by simp [probeLoop, hk], hk,
        fun i h1 h2 => absurd h1 (by omega)⟩

lemma resolveFirst_spec (dir : List (List Char)) (base : List Char) :
    ∃ m, m ≤ dir.length ∧ resolveFirst dir base = probeName base m ∧
      probeName base m ∉ dir ∧ ∀ i, i < m → probeName base i ∈ dir := by
  obtain ⟨j, hj, hfree⟩ := exists_free_probe dir base 0
  have hex : ∃ i, i < dir.length + 1 ∧ probeName base (0 + i) ∉ dir :=
    ⟨j, by omega, hfree⟩
  obtain ⟨m, _, hm2, hm3, hm4⟩ := probeLoop_spec dir base (dir.length + 1) 0 hex
  refine ⟨m, ?_, hm2, hm3, fun i hi => hm4 i (by omega) hi⟩
  by_contra hcon
  push_neg at hcon
  have hmem : probeName base (0 + j) ∈ dir := by
    rw [Nat.zero_add]
    exact hm4 j (by omega) (by omega)
  exact hfree hmem

/-! ## Claim C3 -/

/-- C3: the collision-probing loop never returns a name present in the
directory at call time; with `Invoice.pdf` present, base `Invoice` resolves
to `Invoice_1.pdf`, and with `Invoice_1.pdf` also present, to
`Invoice_2.pdf`; and when a resolved name is added to the directory, the
next resolution for the same base yields a strictly larger counter. -/
theorem spec_c3_collision_resolution :
    (∀ (dir : List (List Char)) (base : List Char), resolveFirst dir base ∉ dir) ∧
      resolveFirst [("Invoice.pdf").toList] (("Invoice").toList) =
        ("Invoice_1.pdf").toList ∧
      resolveFirst [("Invoice.pdf").toList, ("Invoice_1.pdf").toList]
        (("Invoice").toList) = ("Invoice_2.pdf").toList ∧
      (∀ (dir : List (List Char)) (base : List Char), ∃ m m',
        resolveFirst dir base = probeName base m ∧
        resolveFirst (probeName base m :: dir) base = probeName base m' ∧
        m < m') := by
  refine ⟨?_, by decide, by decide, ?_⟩
  · intro dir base
    obtain ⟨m, _, hm2, hm3, _⟩ := resolveFirst_spec dir base
    rw [hm2]
    exact hm3
  · intro dir base
    obtain ⟨m, _, hm2, hm3, hm4⟩ := resolveFirst_spec dir base
    obtain ⟨m', _, hn2, hn3, hn4⟩ := resolveFirst_spec (probeName base m :: dir) base
    refine ⟨m, m', hm2, hn2, ?_⟩
    have hne : m' ≠ m := by
      intro h
      rw [h] at hn3
      exact hn3 (List.mem_cons_self _ _)
    have hge : ¬ m' < m := by
      intro hlt
      exact hn3 (List.mem_cons_of_mem _ (hm4 m' hlt))
    omega

/-! ## Claim C2: the 240-character length handling -/

/-- The length handling of `src/app.py` 247-255: if the resolved name
exceeds 240 characters, the base name is truncated to 236 characters
(reserving room for `.pdf`) and the probing loop is re-run with a fresh
counter.  The re-run's result is not length-checked again. -/
def resolveApp (dir : List (List Char)) (base : List Char) : List Char :=
  let n := resolveFirst dir base
  if 240 < n.length then resolveFirst dir (base.take 236) else n

/-- The length handling of `src/pdf_renamer.py` 121: after the loop the
resolved name itself is truncated to 240 characters, with no re-probing. -/
def resolveRenamer (dir : List (List Char)) (base : List Char) : List Char :=
  (resolveFirst dir base).take 240

lemma probeName_length (base : List Char) (k : Nat) :
    (probeName base k).length =
      if k = 0 then base.length + 4 else base.length + 5 + (natToChars k).length := by
  by_cases hk : k = 0
  · simp [probeName, hk, pdfExt]
  · simp only [probeName, if_neg hk, List.length_append, List.length_cons,
      List.length_append]
    simp [pdfExt]
    omega

lemma natToChars_length_le {k bound : Nat} (hk : k ≠ 0) (h : k < 10 ^ bound) :
    (natToChars k).length ≤ bound := by
  rw [natToChars_length k hk]
  have := (Nat.lt_pow_iff_log_lt (by norm_num : (1 : ℕ) < 10) hk).mp h
  omega

/-- C2, amended: the resolved path (app variant) never exists at the moment
of the check, in both the direct and the truncate-and-re-probe branch; the
240-character bound holds for every sanitized base (length ≤ 70) whenever
the destination directory holds fewer than `10 ^ 165` entries (so the
counter needs at most 165 digits) — but it is not unconditional, because the
re-probed name is never length-checked (see `spec_c2_counterexample`); the
pdf_renamer variant instead truncates the final name to 240 characters
unconditionally, without re-probing. -/
theorem spec_c2_length_handling :
    (∀ (dir : List (List Char)) (base : List Char), resolveApp dir base ∉ dir) ∧
      (∀ (dir : List (List Char)) (base : List Char), base.length ≤ 70 →
        dir.length < 10 ^ 165 → (resolveApp dir base).length ≤ 240) ∧
      (∀ (dir : List (List Char)) (base : List Char),
        (resolveRenamer dir base).length ≤ 240) := by
  refine ⟨?_, ?_, ?_⟩
  · intro dir base
    simp only [resolveApp]
    split_ifs
    · obtain ⟨m, _, hm2, hm3, _⟩ := resolveFirst_spec dir (base.take 236)
      rw [hm2]
      exact hm3
    · obtain ⟨m, _, hm2, hm3, _⟩ := resolveFirst_spec dir base
      rw [hm2]
      exact hm3
  · intro dir base hbase hdir
    obtain ⟨m, hm1, hm2, _, _⟩ := resolveFirst_spec dir base
    have hlen : (resolveFirst dir base).length ≤ 240 := by
      rw [hm2, probeName_length]
      by_cases hm0 : m = 0
      · rw [if_pos hm0]
        omega
      · rw [if_neg hm0]
        have hd : (natToChars m).length ≤ 165 :=
          natToChars_length_le hm0 (by omega)
        omega
    simp only [resolveApp]
    rw [if_neg (by omega)]
    exact hlen
  · intro dir base
    exact List.length_take_le 240 _

/-- C2 counterexample: `"B"` is a sanitizer fixed point (a sanitized base
name), yet in a directory that already holds the first `10 ^ 235` probe
names for it, the app variant resolves — through its truncate-and-re-probe
branch, which changes nothing since the base is short — to
`B_{10^235}.pdf`, whose length is 242 > 240. -/
theorem spec_c2_counterexample :
    240 < (resolveApp ((List.range (10 ^ 235)).map (probeName (("B").toList)))
        (("B").toList)).length ∧
      sanitize_label (("B").toList) = ("B").toList := by
  constructor
  · set base := ("B").toList with hbase
    set N := (10 : ℕ) ^ 235 with hN
    set dir := (List.range N).map (probeName base) with hdir
    have hNpos : N ≠ 0 := by
      rw [hN]
      positivity
    have hocc : ∀ i, i < N → probeName base i ∈ dir := by
      intro i hi
      rw [hdir]
      exact List.mem_map_of_mem _ (List.mem_range.mpr hi)
    have hfreeN : probeName base N ∉ dir := by
      rw [hdir]
      intro hmem
      rw [List.mem_map] at hmem
      obtain ⟨i, hi, heq⟩ := hmem
      have hiN := probeName_inj heq
      rw [hiN] at hi
      exact absurd (List.mem_range.mp hi) (by omega)
    obtain ⟨m, _, hm2, hm3, hm4⟩ := resolveFirst_spec dir base
    have hmN : m = N := by
      have h1 : ¬ m < N := fun hlt => hm3 (hocc m hlt)
      have h2 : ¬ N < m := fun hlt => hfreeN (hm4 N hlt)
      omega
    have hlenN : (natToChars N).length = 236 := by
      have h1 := natToChars_length N hNpos
      have h2 : Nat.log 10 N = 235 := by
        rw [hN]
        exact Nat.log_pow (by norm_num) 235
      omega
    have hb1 : base.length = 1 := by rw [hbase]; rfl
    have hr : (resolveFirst dir base).length = 242 := by
      have hp := probeName_length base N
      rw [if_neg hNpos] at hp
      rw [hm2, hmN]
      omega
    have htrunc : base.take 236 = base :=
      List.take_of_length_le (by omega)
    simp only [resolveApp]
    rw [if_pos (by omega), htrunc]
    omega
  · decide

/-! ## Claim C4: fallback from image classification to extracted text -/

/-- The classification-failure sentinels that `process_pdf` treats as "no
usable label from the image path" (`src/app.py` 220-225). -/
def failureSentinels : List (List Char) :=
  [("NO_VISION_DATA").toList, ("IMAGE_STORE_FAILED").toList,
    ("NO_IMAGE_FOUND").toList, ("Vision Analysis Failed").toList,
    ("Vision Analysis Failed due to API Error").toList]

/-- The content selection of `src/app.py` 225-228: the vision result when
usable, otherwise the extracted page text; and when that choice is empty,
the sentinel `"No content available"`. -/
def content_for_naming (vision_result page_text : List Char) : List Char :=
  let c := if vision_result ∈ failureSentinels then page_text else vision_result
  if c = [] then ("No content available").toList else c

/-- C4, amended: when the image path yields any of the failure sentinels the
worker names from the page text; when that text is also empty it proceeds
with the sentinel — spelled `"No content available"` in the code, not
`"no content available"` as the claim quotes it (see
`spec_c4_counterexample`) — a usable vision result is used as-is, and the
content passed on to naming is never empty, so the document is always named
rather than left unmoved.  (This fallback exists only in `src/app.py`;
`src/pdf_renamer.py` 110-111 passes the vision sentinel string itself to
naming.) -/
theorem spec_c4_text_fallback :
    (∀ v pt : List Char, v ∈ failureSentinels → pt ≠ [] →
        content_for_naming v pt = pt) ∧
      (∀ v : List Char, v ∈ failureSentinels →
        content_for_naming v [] = ("No content available").toList) ∧
      (∀ v pt : List Char, v ∉ failureSentinels → v ≠ [] →
        content_for_naming v pt = v) ∧
      (∀ v pt : List Char, content_for_naming v pt ≠ []) := by
  refine ⟨?_, ?_, ?_, ?_⟩
  · intro v pt hv hpt
    simp [content_for_naming, hv, hpt]
  · intro v hv
    simp [content_for_naming, hv]
  · intro v pt hv hne
    simp [content_for_naming, hv, hne]
  · intro v pt
    simp only [content_for_naming]
    split_ifs
    all_goals first | decide | assumption

/-- C4 counterexample: with no usable vision result and empty page text the
code's sentinel is `"No content available"`, which differs from the
`"no content available"` the claim quotes. -/
theorem spec_c4_counterexample :
    content_for_naming (("NO_VISION_DATA").toList) [] =
        ("No content available").toList ∧
      ("No content available").toList ≠ ("no content available").toList := by
  decide

/-! ## Claim C5: the move-failure fallback -/

/-- Whether a `shutil.move` call succeeds or raises. -/
inductive MoveResult where
  | ok
  | err
deriving DecidableEq

/-- The fixed processing-error name prepended to the original filename in
the fallback (`src/pdf_renamer.py` 128). -/
def fehlerDoc : List Char := ("Fehler_doc_").toList

/-- The move phase of `src/pdf_renamer.py` 124-134, instrumented with the
list of destination names attempted in order: move to the resolved name; on
an exception, one fallback move to `"Fehler_doc_" + basename(pdf_path)`; if
that also raises, a critical error is logged and the file stays put
(destination `none`). -/
def move_with_fallback (mv : List Char → MoveResult) (new_name orig_name : List Char) :
    List (List Char) × Option (List Char) :=
  match mv new_name with
  | .ok => ([new_name], some new_name)
  | .err =>
    match mv (fehlerDoc ++ orig_name) with
    | .ok => ([new_name, fehlerDoc ++ orig_name], some (fehlerDoc ++ orig_name))
    | .err => ([new_name, fehlerDoc ++ orig_name], none)

/-- The move phase of `src/app.py` 257-263, same instrumentation: the move
sits in the worker's outer `try`, so a failure is caught by the generic
`except`, reported through the status callback, and no fallback move is
attempted. -/
def move_app (mv : List Char → MoveResult) (new_name : List Char) :
    List (List Char) × Option (List Char) :=
  match mv new_name with
  | .ok => ([new_name], some new_name)
  | .err => ([new_name], none)

/-- The location of the document after the move phase: its destination when
some move succeeded, its original path otherwise. -/
def final_location (src : List Char)
    (result : List (List Char) × Option (List Char)) : List Char :=
  result.2.getD src

/-- C5, amended: in `src/pdf_renamer.py`'s worker a failed move triggers
exactly one fallback attempt, at the fixed prefix `"Fehler_doc_"` joined
with the original filename; the critical-error outcome occurs exactly when
both moves fail, and then the file remains at its source.  (`src/app.py`'s
worker attempts no fallback: see `spec_c5_counterexample`.) -/
theorem spec_c5_move_fallback :
    (∀ (mv : List Char → MoveResult) (new orig : List Char),
        mv new = MoveResult.ok →
          move_with_fallback mv new orig = ([new], some new)) ∧
      (∀ (mv : List Char → MoveResult) (new orig : List Char),
        mv new = MoveResult.err →
          (move_with_fallback mv new orig).1 = [new, fehlerDoc ++ orig]) ∧
      (∀ (mv : List Char → MoveResult) (new orig : List Char),
        (move_with_fallback mv new orig).2 = none ↔
          (mv new = MoveResult.err ∧ mv (fehlerDoc ++ orig) = MoveResult.err)) ∧
      (∀ (mv : List Char → MoveResult) (new orig src : List Char),
        mv new = MoveResult.err → mv (fehlerDoc ++ orig) = MoveResult.err →
          final_location src (move_with_fallback mv new orig) = src) := by
  refine ⟨?_, ?_, ?_, ?_⟩
  · intro mv new orig h
    simp [move_with_fallback, h]
  · intro mv new orig h
    cases h2 : mv (fehlerDoc ++ orig) <;> simp [move_with_fallback, h, h2]
  · intro mv new orig
    cases h1 : mv new <;> cases h2 : mv (fehlerDoc ++ orig) <;>
      simp [move_with_fallback, h1, h2]
  · intro mv new orig src h1 h2
    simp [final_location, move_with_fallback, h1, h2]

/-- C5 counterexample: in `src/app.py`, when the move of `X.pdf`'s resolved
name fails, the only attempted destination is that resolved name — the
`"Fehler_doc_"` fallback name is never attempted — and the worker ends with
the file unmoved after this single failure. -/
theorem spec_c5_counterexample :
    move_app (fun _ => MoveResult.err) (("X.pdf").toList) =
        ([("X.pdf").toList], none) ∧
      (fehlerDoc ++ ("X.pdf").toList) ∉
        (move_app (fun _ => MoveResult.err) (("X.pdf").toList)).1 := by
  decide

/-! ## Claim C6: largest-image selection -/

/-- One embedded image as `doc.extract_image` returns it: optional pixel
dimensions (a missing key is read as 0) and the image payload, identified
here by its `xref`. -/
structure ImgInfo where
  width : Option Nat
  height : Option Nat
  xref : Nat
deriving DecidableEq

/-- `width * height` with missing dimensions treated as 0
(`src/pdf_renamer.py` 82-84, `src/app.py` 186-188). -/
def area (i : ImgInfo) : Nat :=
  i.width.getD 0 * i.height.getD 0

/-- The selection loop `if best_candidate is None or area >
best_candidate["area"]: best_candidate = ...` (`src/pdf_renamer.py` 77-86,
`src/app.py` 180-190): strictly larger area replaces, so ties keep the
first. -/
def selectBest : Option ImgInfo → List ImgInfo → Option ImgInfo
  | best, [] => best
  | none, i :: rest => selectBest (some i) rest
  | some b, i :: rest => selectBest (some (if area b < area i then i else b)) rest

/-- The best image candidate of the first page's enumeration. -/
def best_candidate (l : List ImgInfo) : Option ImgInfo :=
  selectBest none l

lemma selectBest_invariant : ∀ (l : List ImgInfo) (acc : ImgInfo),
    (selectBest (some acc) l = some acc ∧ ∀ i ∈ l, area i ≤ area acc) ∨
    (∃ (k : Nat) (r : ImgInfo), selectBest (some acc) l = some r ∧
      l[k]? = some r ∧ area acc < area r ∧
      (∀ (j : Nat) (x : ImgInfo), j < k → l[j]? = some x → area x < area r) ∧
      ∀ i ∈ l, area i ≤ area r) := by
  intro l
  induction l with
  | nil =>
    intro acc
    exact Or.inl ⟨rfl, by simp⟩
  | cons i rest ih =>
    intro acc
    by_cases hlt : area acc < area i
    · have hsel : selectBest (some acc) (i :: rest) = selectBest (some i) rest := by
        simp [selectBest, if_pos hlt]
      rcases ih i with ⟨h1, h2⟩ | ⟨k, r, h1, h2, h3, h4, h5⟩
      · refine Or.inr ⟨0, i, ?_, by simp, hlt, ?_, ?_⟩
        · rw [hsel]; exact h1
        · intro j x hj _
          omega
        · intro x hx
          rcases List.mem_cons.mp hx with rfl | hx'
          · exact le_refl _
          · exact h2 x hx'
      · refine Or.inr ⟨k + 1, r, ?_, ?_, lt_trans hlt h3, ?_, ?_⟩
        · rw [hsel]; exact h1
        · rw [List.getElem?_cons_succ]; exact h2
        · intro j x hj hx
          cases j with
          | zero =>
            rw [List.getElem?_cons_zero] at hx
            cases hx
            exact h3
          | succ j' =>
            rw [List.getElem?_cons_succ] at hx
            exact h4 j' x (by omega) hx
        · intro x hx
          rcases List.mem_cons.mp hx with rfl | hx'
          · exact le_of_lt h3
          · exact h5 x hx'
    · have hsel : selectBest (some acc) (i :: rest) = selectBest (some acc) rest := by
        simp [selectBest, if_neg hlt]
      have hle : area i ≤ area acc := Nat.le_of_not_lt hlt
      rcases ih acc with ⟨h1, h2⟩ | ⟨k, r, h1, h2, h3, h4, h5⟩
      · refine Or.inl ⟨?_, ?_⟩
        · rw [hsel]; exact h1
        · intro x hx
          rcases List.mem_cons.mp hx with rfl | hx'
          · exact hle
          · exact h2 x hx'
      · refine Or.inr ⟨k + 1, r, ?_, ?_, h3, ?_, ?_⟩
        · rw [hsel]; exact h1
        · rw [List.getElem?_cons_succ]; exact h2
        · intro j x hj hx
          cases j with
          | zero =>
            rw [List.getElem?_cons_zero] at hx
            cases hx
            exact lt_of_le_of_lt hle h3
          | succ j' =>
            rw [List.getElem?_cons_succ] at hx
            exact h4 j' x (by omega) hx
        · intro x hx
          rcases List.mem_cons.mp hx with rfl | hx'
          · exact le_of_lt (lt_of_le_of_lt hle h3)
          · exact h5 x hx'

/-- C6: for every non-empty image list the extractor selects an element of
the list of maximal area, and it is the first of that area in enumeration
order (every earlier element has strictly smaller area); concretely, with
one 800×600 and one 200×100 image it selects the 800×600 one; a missing
dimension makes the area 0. -/
theorem spec_c6_best_image :
    (∀ l : List ImgInfo, l ≠ [] → ∃ (k : Nat) (b : ImgInfo),
        best_candidate l = some b ∧ l[k]? = some b ∧
        (∀ i ∈ l, area i ≤ area b) ∧
        ∀ (j : Nat) (x : ImgInfo), j < k → l[j]? = some x → area x < area b) ∧
      best_candidate [⟨some 800, some 600, 1⟩, ⟨some 200, some 100, 2⟩] =
        some ⟨some 800, some 600, 1⟩ ∧
      area ⟨none, some 5, 3⟩ = 0 := by
  refine ⟨?_, by decide, rfl⟩
  intro l hl
  cases l with
  | nil => exact absurd rfl hl
  | cons i rest =>
    have hbc : best_candidate (i :: rest) = selectBest (some i) rest := rfl
    rcases selectBest_invariant rest i with ⟨h1, h2⟩ | ⟨k, r, h1, h2, h3, h4, h5⟩
    · refine ⟨0, i, ?_, by simp, ?_, ?_⟩
      · rw [hbc]; exact h1
      · intro x hx
        rcases List.mem_cons.mp hx with rfl | hx'
        · exact le_refl _
        · exact h2 x hx'
      · intro j x hj _
        omega
    · refine ⟨k + 1, r, ?_, ?_, ?_, ?_⟩
      · rw [hbc]; exact h1
      · rw [List.getElem?_cons_succ]; exact h2
      · intro x hx
        rcases List.mem_cons.mp hx with rfl | hx'
        · exact le_of_lt h3
        · exact h5 x hx'
      · intro j x hj hx
        cases j with
        | zero =>
          rw [List.getElem?_cons_zero] at hx
          cases hx
          exact h3
        | succ j' =>
          rw [List.getElem?_cons_succ] at hx
          exact h4 j' x (by omega) hx

/-! ## Claims C7 and C10: the status table -/

/-- One row of the workflow status table
(`st.session_state.processed_files` in `src/app.py`). -/
structure StatusRecord where
  orig : List Char
  newName : List Char
  status : List Char
  timestamp : List Char
deriving DecidableEq

/-- `update_status_display` (`src/app.py` 340-354): the first record whose
Original Filename equals `orig` is updated in place — an empty `newName`
argument keeps the stored New Filename, a non-empty one replaces it; Status
and Timestamp are always overwritten — and iteration stops (`break`); when
no record matches, a new record is appended. -/
def update_status_display (files : List StatusRecord)
    (orig newName stat ts : List Char) : List StatusRecord :=
  match files with
  | [] => [⟨orig, newName, stat, ts⟩]
  | r :: rest =>
    if r.orig = orig then
      ⟨r.orig, (if newName = [] then r.newName else newName), stat, ts⟩ :: rest
    else r :: update_status_display rest orig newName stat ts

/-- `os.path.basename` for a POSIX path: the part after the last slash. -/
def basename (p : List Char) : List Char :=
  (p.reverse.takeWhile (fun c => c ≠ '/')).reverse

/-- The outcome of the vision call in `process_image_with_openai`. -/
inductive VisionCall where
  | ok (content : List Char)
  | apiError
  | otherError
deriving DecidableEq

/-- `process_image_with_openai` (`src/app.py` 265-288), instrumented with
the status events it emits as `(key, new_filename, status)` triples: a
successful call emits no event and returns the vision output; the two
exception handlers each emit one event keyed by
`os.path.basename(image_path)` — the temporary image file's name, not the
document's original filename — and return their sentinel. -/
def process_image_with_openai (outcome : VisionCall) (image_path : List Char) :
    List Char × List (List Char × List Char × List Char) :=
  match outcome with
  | .ok content => (content, [])
  | .apiError => (("Vision Analysis Failed due to API Error").toList,
      [(basename image_path, [], ("Error: OpenAI API (Vision)").toList)])
  | .otherError => (("Vision Analysis Failed").toList,
      [(basename image_path, [], ("Error: Vision processing").toList)])

/-- C7: the vision-error status event for a document `report.pdf` whose
page image was stored at `/tmp/tmpab12.jpg` is keyed `tmpab12.jpg`, not the
document's original filename; feeding it to `update_status_display` over a
table that already holds the `report.pdf` record appends a second,
unrelated record instead of updating the document's record. -/
theorem spec_c7_temp_key_bug :
    (process_image_with_openai VisionCall.apiError
        (("/tmp/tmpab12.jpg").toList)).2 =
      [(("tmpab12.jpg").toList, [], ("Error: OpenAI API (Vision)").toList)] ∧
      ("tmpab12.jpg").toList ≠ ("report.pdf").toList ∧
      (update_status_display
          [⟨("report.pdf").toList, [], ("Processing...").toList, []⟩]
          (("tmpab12.jpg").toList) [] (("Error: OpenAI API (Vision)").toList)
          []).length = 2 := by
  decide

/-- C10: updating an existing key rewrites only the Status and Timestamp
fields of the first matching record — the stored New Filename survives an
empty `newName` argument and is replaced by a non-empty one — keeps every
other record untouched, and appends nothing. -/
theorem spec_c10_update_in_place (pre post : List StatusRecord) (r : StatusRecord)
    (newName stat ts : List Char) (hpre : ∀ q ∈ pre, q.orig ≠ r.orig) :
    update_status_display (pre ++ r :: post) r.orig newName stat ts =
      pre ++ ⟨r.orig, (if newName = [] then r.newName else newName), stat, ts⟩ ::
        post := by
  induction pre with
  | nil => simp [update_status_display]
  | cons q qs ih =>
    have hq : q.orig ≠ r.orig := hpre q (List.mem_cons_self q qs)
    simp only [List.cons_append, update_status_display, if_neg hq, List.append_eq]
    rw [ih (fun x hx => hpre x (List.mem_cons_of_mem _ hx))]

/-- C10 witness: a concrete update of an existing record with an empty
new-filename argument keeps the stored New Filename and rewrites Status. -/
theorem spec_c10_witness :
    update_status_display
        [⟨("a.pdf").toList, ("X.pdf").toList, ("Queued").toList, []⟩]
        (("a.pdf").toList) [] (("Processing").toList) [] =
      [⟨("a.pdf").toList, ("X.pdf").toList, ("Processing").toList, []⟩] :=
  spec_c10_update_in_place [] []
    ⟨("a.pdf").toList, ("X.pdf").toList, ("Queued").toList, []⟩ []
    (("Processing").toList) [] (by simp)

end PdfAutoRenamer
